import Mathlib

/-!
Shallow embedding of `src/fetch_ud.py` (class `UrbanDictionaryFetcher`).

Python values that can flow through the pipeline are modelled by `PyVal`:
the JSON-representable constructors plus `obj`, a stand-in for an
arbitrary non-JSON-serializable Python object (the kind on which
`json.dumps` raises `TypeError`).  Python `dict`s are modelled as
association lists preserving insertion order, as Python dicts do.
Strings are Lean `String`s; `str.strip()`, `str.upper()` and
`str.isalpha()` are modelled at the ASCII level over the character list
of the string (all concrete inputs used below are ASCII).

Exceptions that the source can raise or catch are modelled by `PyError`
together with `Except`; a Python function that can raise returns
`Except PyError _`, and a `try/except KeyError` block is a `match` on
that result.  Log output is modelled only where a claim talks about it.
-/

inductive PyVal where
  | none
  | bool (b : Bool)
  | int (n : Int)
  | str (s : String)
  | list (l : List PyVal)
  | dict (d : List (String × PyVal))
  | obj
deriving Repr

mutual

def pyValBEq : PyVal → PyVal → Bool
  | .none, .none => true
  | .bool a, .bool b => a == b
  | .int a, .int b => a == b
  | .str a, .str b => a == b
  | .obj, .obj => true
  | .list a, .list b => pyValListBEq a b
  | .dict a, .dict b => pyValDictBEq a b
  | _, _ => false

def pyValListBEq : List PyVal → List PyVal → Bool
  | [], [] => true
  | a :: as, b :: bs => pyValBEq a b && pyValListBEq as bs
  | _, _ => false

def pyValDictBEq : List (String × PyVal) → List (String × PyVal) → Bool
  | [], [] => true
  | (k, v) :: as, (k', v') :: bs =>
    k == k' && pyValBEq v v' && pyValDictBEq as bs
  | _, _ => false

end

mutual

def pyValBEq_eq : ∀ a b : PyVal, pyValBEq a b = true → a = b
  | .none, .none, _ => rfl
  | .bool a, .bool b, h => congrArg PyVal.bool (eq_of_beq h)
  | .int a, .int b, h => congrArg PyVal.int (eq_of_beq h)
  | .str a, .str b, h => congrArg PyVal.str (eq_of_beq h)
  | .obj, .obj, _ => rfl
  | .list a, .list b, h => congrArg PyVal.list (pyValListBEq_eq a b h)
  | .dict a, .dict b, h => congrArg PyVal.dict (pyValDictBEq_eq a b h)

def pyValListBEq_eq : ∀ a b : List PyVal, pyValListBEq a b = true → a = b
  | [], [], _ => rfl
  | a :: as, b :: bs, h => by
    have h' := h
    simp only [pyValListBEq, Bool.and_eq_true] at h'
    exact congrArg₂ List.cons (pyValBEq_eq a b h'.1) (pyValListBEq_eq as bs h'.2)

def pyValDictBEq_eq :
    ∀ a b : List (String × PyVal), pyValDictBEq a b = true → a = b
  | [], [], _ => rfl
  | (k, v) :: as, (k', v') :: bs, h => by
    have h' := h
    simp only [pyValDictBEq, Bool.and_eq_true] at h'
    have hk : k = k' := eq_of_beq h'.1.1
    have hv : v = v' := pyValBEq_eq v v' h'.1.2
    have hr : as = bs := pyValDictBEq_eq as bs h'.2
    rw [hk, hv, hr]

end

mutual

def pyValBEq_refl : ∀ a : PyVal, pyValBEq a a = true
  | .none => rfl
  | .bool a => by simp [pyValBEq]
  | .int a => by simp [pyValBEq]
  | .str a => by simp [pyValBEq]
  | .obj => rfl
  | .list a => pyValListBEq_refl a
  | .dict a => pyValDictBEq_refl a

def pyValListBEq_refl : ∀ a : List PyVal, pyValListBEq a a = true
  | [] => rfl
  | a :: as => by
    simp only [pyValListBEq, Bool.and_eq_true]
    exact ⟨pyValBEq_refl a, pyValListBEq_refl as⟩

def pyValDictBEq_refl :
    ∀ a : List (String × PyVal), pyValDictBEq a a = true
  | [] => rfl
  | (k, v) :: as => by
    simp only [pyValDictBEq, Bool.and_eq_true]
    exact ⟨⟨by simp, pyValBEq_refl v⟩, pyValDictBEq_refl as⟩

end

instance : DecidableEq PyVal := fun a b =>
  if h : pyValBEq a b = true then isTrue (pyValBEq_eq a b h)
  else isFalse (fun he => h (he ▸ pyValBEq_refl a))

inductive PyError where
  | keyError
  | attributeError
  | typeError
deriving Repr, DecidableEq

inductive LogMsg where
  | warning (s : String)
  | info (s : String)
  | debug (s : String)
deriving Repr, DecidableEq

instance {ε α : Type} [DecidableEq ε] [DecidableEq α] :
    DecidableEq (Except ε α) := fun a b =>
  match a, b with
  | .ok x, .ok y =>
    if h : x = y then isTrue (by rw [h])
    else isFalse (fun he => h (by cases he; rfl))
  | .error x, .error y =>
    if h : x = y then isTrue (by rw [h])
    else isFalse (fun he => h (by cases he; rfl))
  | .ok _, .error _ => isFalse (fun he => by cases he)
  | .error _, .ok _ => isFalse (fun he => by cases he)

/-- Lookup in a Python dict (first binding of the key; insertion order). -/
def dictGet (d : List (String × PyVal)) (k : String) : Option PyVal :=
  match d with
  | [] => Option.none
  | (k', v) :: rest => if k' = k then some v else dictGet rest k

/-- Python dict assignment `d[k] = v`: overwrite in place if the key
exists, otherwise append the new binding at the end. -/
def dictSet (d : List (String × PyVal)) (k : String) (v : PyVal) :
    List (String × PyVal) :=
  match d with
  | [] => [(k, v)]
  | (k', v') :: rest =>
    if k' = k then (k', v) :: rest else (k', v') :: dictSet rest k v

/-- Python subscript `v[k]` with a string key: on a dict it is a lookup
raising `KeyError` when absent; on a string or list a string subscript
raises `TypeError`; other values are not subscriptable (`TypeError`). -/
def pyGetItem (v : PyVal) (k : String) : Except PyError PyVal :=
  match v with
  | .dict d =>
    match dictGet d k with
    | some x => .ok x
    | Option.none => .error .keyError
  | _ => .error .typeError

def dropLeadingWs : List Char → List Char
  | [] => []
  | c :: cs => if c.isWhitespace then dropLeadingWs cs else c :: cs

/-- Model of Python `str.strip()`: remove whitespace from both ends. -/
def pyStrip (s : String) : String :=
  String.mk (dropLeadingWs ((dropLeadingWs s.toList.reverse).reverse))

/-- Python `v.strip()`: defined on strings only; on any other value the
attribute does not exist and `AttributeError` is raised. -/
def pyStripVal (v : PyVal) : Except PyError String :=
  match v with
  | .str s => .ok (pyStrip s)
  | _ => .error .attributeError

/-- Python hashability: lists and dicts are unhashable (membership tests
against a `set` raise `TypeError` on them); other modelled values hash. -/
def pyHashable (v : PyVal) : Bool :=
  match v with
  | .list _ => false
  | .dict _ => false
  | _ => true

mutual

/-- Whether `json.dumps` succeeds on a value (`_validate_json` checks
exactly this): true unless a non-serializable object occurs inside. -/
def pySerializable : PyVal → Bool
  | .none => true
  | .bool _ => true
  | .int _ => true
  | .str _ => true
  | .obj => false
  | .list l => pySerializableList l
  | .dict d => pySerializableDict d

def pySerializableList : List PyVal → Bool
  | [] => true
  | v :: vs => pySerializable v && pySerializableList vs

def pySerializableDict : List (String × PyVal) → Bool
  | [] => true
  | (_, v) :: d => pySerializable v && pySerializableDict d

end

/-- Model of `_validate_json` (lines 91-96): `json.dumps(data)` inside
`try`, returning whether it succeeded. -/
def _validate_json (v : PyVal) : Bool := pySerializable v

/-- A normalized entry as built by `_extract_entry_data`: `word`,
`definition` and `example` have been through `.strip()` and are strings;
`defid` and `written_on` are passed through untouched. -/
structure Entry where
  defid : PyVal
  word : String
  definition : String
  exampleStr : String
  written_on : PyVal
deriving Repr, DecidableEq

/-- The dict that `_extract_entry_data` returns (insertion order of the
dict literal at lines 80-86). -/
def entryToPyVal (e : Entry) : PyVal :=
  .dict [("defid", e.defid), ("word", .str e.word),
         ("definition", .str e.definition), ("example", .str e.exampleStr),
         ("written_on", e.written_on)]

/-- The definition-record stored in the letter index (lines 145-150):
the entry without its `word` field. -/
def defRecordOf (e : Entry) : PyVal :=
  .dict [("defid", e.defid), ("definition", .str e.definition),
         ("example", .str e.exampleStr), ("written_on", e.written_on)]

/-- Body of the `try` block of `_extract_entry_data` (lines 80-86): the
dict literal evaluates its five values left to right, so the first
failing subscript or `.strip()` determines the exception. -/
def tryExtract (raw : PyVal) : Except PyError Entry := do
  let defid ← pyGetItem raw "defid"
  let wordRaw ← pyGetItem raw "word"
  let word ← pyStripVal wordRaw
  let defRaw ← pyGetItem raw "definition"
  let defn ← pyStripVal defRaw
  let exRaw ← pyGetItem raw "example"
  let exs ← pyStripVal exRaw
  let written_on ← pyGetItem raw "written_on"
  pure { defid := defid, word := word, definition := defn,
         exampleStr := exs, written_on := written_on }

/-- Model of `_extract_entry_data` (lines 78-89): only `KeyError` is
caught (yielding `None`, i.e. `ok Option.none`); any other exception —
in particular the `AttributeError` from `.strip()` on a non-string —
propagates to the caller. -/
def _extract_entry_data (raw : PyVal) : Except PyError (Option Entry) :=
  match tryExtract raw with
  | .ok e => .ok (some e)
  | .error .keyError => .ok Option.none
  | .error e => .error e

/-- State of the record loop of `fetch_and_store` (lines 160-180):
`seen` is `self.seen_defids`, `new_entries` the list built this run. -/
structure RunState where
  seen : Finset PyVal
  new_entries : List Entry
deriving DecidableEq

/-- One iteration of the inner loop of `fetch_and_store` (lines 168-178):
extract the raw record (`KeyError` already turned into `None` there; any
other exception propagates and aborts the run), skip a `None` result,
test `defid in self.seen_defids` (a `set` membership, `TypeError` on an
unhashable defid), and otherwise append the entry and record its defid. -/
def processRecord (st : RunState) (raw : PyVal) : Except PyError RunState := do
  let r ← _extract_entry_data raw
  match r with
  | Option.none => pure st
  | some e =>
    if pyHashable e.defid then
      if e.defid ∈ st.seen then pure st
      else pure { seen := insert e.defid st.seen,
                  new_entries := st.new_entries ++ [e] }
    else .error .typeError

/-- The inner loop of `fetch_and_store` over a sequence of raw records
(the concatenation of the fetched batches, in fetch order). -/
def processRecords (st : RunState) : List PyVal → Except PyError RunState
  | [] => .ok st
  | r :: rs => do processRecords (← processRecord st r) rs

/-- The entries that `_extract_entry_data` yields on a record sequence
when no record raises: `None` results are skipped, order is preserved. -/
def extractedOk : List PyVal → Except PyError (List Entry)
  | [] => .ok []
  | r :: rs => do
    let o ← _extract_entry_data r
    let rest ← extractedOk rs
    match o with
    | Option.none => .ok rest
    | some e => .ok (e :: rest)

/-- Content of one on-disk JSON file: absent, present but not parseable
as JSON (`json.load` raises `JSONDecodeError`), or a parsed value. -/
inductive FileData where
  | absent
  | corrupt
  | stored (v : PyVal)
deriving Repr, DecidableEq

/-- Reading step of `_save_to_daily_dump` (lines 105-111): an absent or
unparseable file yields the empty list (the `except` clause); a stored
non-list value makes `existing_data.extend(entries)` raise
`AttributeError`, which is not caught. -/
def readDailyExisting (file : FileData) : Except PyError (List PyVal) :=
  match file with
  | .absent => .ok []
  | .corrupt => .ok []
  | .stored (.list l) => .ok l
  | .stored _ => .error .attributeError

/-- Model of `_save_to_daily_dump` (lines 98-117) acting on today's dump
file.  An empty entry list returns at once.  The merged list is written
back only when `_validate_json` accepts it; otherwise the function
falls off the `if` with the file untouched.  The second component is
the log output of the function — the source contains no logging call in
this function, so it is empty on every path. -/
def _save_to_daily_dump (file : FileData) (entries : List Entry) :
    Except PyError (FileData × List LogMsg) :=
  match entries with
  | [] => .ok (file, [])
  | _ =>
    match readDailyExisting file with
    | .error e => .error e
    | .ok l =>
      let merged := l ++ entries.map entryToPyVal
      if _validate_json (.list merged) then .ok (.stored (.list merged), [])
      else .ok (file, [])

/-- Model of Python `str.upper()` at the ASCII level: uppercase each
character. -/
def pyUpper (s : String) : String := String.mk (s.toList.map Char.toUpper)

/-- The bucket chosen for a word by lines 125-127 of
`_save_to_alphabetical_dict`: uppercase the word; when the result is
empty the entry is skipped entirely (`if word:` fails) and no bucket is
chosen; otherwise the bucket is the first character when it is
alphabetic and the catch-all "OTHER" when not. -/
def bucketOf (word : String) : Option String :=
  match (pyUpper word).toList with
  | [] => Option.none
  | c :: _ => some (if c.isAlpha then String.mk [c] else "OTHER")

/-- Append an entry to the group of a letter, creating the group at the
end when new — the insertion-order behaviour of the `letter_groups`
dict built at lines 123-130. -/
def groupAppend (gs : List (String × List Entry)) (k : String) (e : Entry) :
    List (String × List Entry) :=
  match gs with
  | [] => [(k, [e])]
  | (k', es) :: rest =>
    if k' = k then (k', es ++ [e]) :: rest else (k', es) :: groupAppend rest k e

def groupByLetterAux (acc : List (String × List Entry)) :
    List Entry → List (String × List Entry)
  | [] => acc
  | e :: es =>
    match bucketOf e.word with
    | Option.none => groupByLetterAux acc es
    | some k => groupByLetterAux (groupAppend acc k e) es

/-- The `letter_groups` dict of `_save_to_alphabetical_dict` after the
loop of lines 123-130, in insertion order. -/
def letter_groups (entries : List Entry) : List (String × List Entry) :=
  groupByLetterAux [] entries

/-- One step of the inner loop of lines 143-154: look up the exact,
case-preserved word; `existing_dict[word] = []` first when the key is
absent; then `.append` the definition-record — which raises
`AttributeError` when an existing value is not a list. -/
def dictAppendRecord (d : List (String × PyVal)) (w : String) (rec : PyVal) :
    Except PyError (List (String × PyVal)) :=
  match dictGet d w with
  | Option.none => .ok (dictSet d w (.list [rec]))
  | some (.list l) => .ok (dictSet d w (.list (l ++ [rec])))
  | some _ => .error .attributeError

def dictAppendAll (d : List (String × PyVal)) :
    List Entry → Except PyError (List (String × PyVal))
  | [] => .ok d
  | e :: es => do dictAppendAll (← dictAppendRecord d e.word (defRecordOf e)) es

/-- The per-letter body of `_save_to_alphabetical_dict` (lines 132-158):
read the letter's file (empty dict when absent or unparseable; a stored
non-dict raises `TypeError` at the first `in` test or subscript),
append every entry of the group under its exact word, and write the
dict back only when `_validate_json` accepts it. -/
def mergeLetterFile (file : FileData) (les : List Entry) :
    Except PyError FileData :=
  let existing : Except PyError (List (String × PyVal)) :=
    match file with
    | .absent => .ok []
    | .corrupt => .ok []
    | .stored (.dict d) => .ok d
    | .stored _ => .error .typeError
  match existing with
  | .error e => .error e
  | .ok d =>
    match dictAppendAll d les with
    | .error e => .error e
    | .ok d' =>
      if _validate_json (.dict d') then .ok (.stored (.dict d'))
      else .ok file

/-- A directory of files keyed by name (date or letter), as an
association list with the same update discipline as `dictSet`. -/
def storeSet (s : List (String × FileData)) (k : String) (v : FileData) :
    List (String × FileData) :=
  match s with
  | [] => [(k, v)]
  | (k', v') :: rest =>
    if k' = k then (k', v) :: rest else (k', v') :: storeSet rest k v

/-- The file a directory holds under a name; a missing name is an
absent file. -/
def fileAt (s : List (String × FileData)) (k : String) : FileData :=
  match s with
  | [] => .absent
  | (k', v) :: rest => if k' = k then v else fileAt rest k

/-- The outer loop of `_save_to_alphabetical_dict` over the letter
groups, threading the dictionary directory. -/
def saveLetterGroups (store : List (String × FileData)) :
    List (String × List Entry) → Except PyError (List (String × FileData))
  | [] => .ok store
  | (ltr, les) :: rest => do
    let f' ← mergeLetterFile (fileAt store ltr) les
    saveLetterGroups (storeSet store ltr f') rest

/-- Model of `_save_to_alphabetical_dict` (lines 119-158) acting on the
dictionary directory: an empty entry list returns at once; otherwise
group the entries by bucket and merge each group into its letter file. -/
def _save_to_alphabetical_dict (store : List (String × FileData))
    (entries : List Entry) : Except PyError (List (String × FileData)) :=
  match entries with
  | [] => .ok store
  | _ => saveLetterGroups store (letter_groups entries)

/-- Whether the first list is a leading segment of the second. -/
def startsWithChars : List Char → List Char → Bool
  | [], _ => true
  | _ :: _, [] => false
  | p :: ps, c :: cs => p == c && startsWithChars ps cs

/-- Whether `pat` occurs contiguously inside `s` (Python `pat in s` on
strings). -/
def hasSubstr (pat : List Char) : List Char → Bool
  | [] => pat.isEmpty
  | c :: cs => startsWithChars pat (c :: cs) || hasSubstr pat cs

/-- Python membership test `"defid" in entry` as it occurs at line 55:
key membership on a dict, substring search on a string, element
membership on a list, and `TypeError` on non-iterable values. -/
def pyContainsDefid (entry : PyVal) : Except PyError Bool :=
  match entry with
  | .dict d => .ok ((dictGet d "defid").isSome)
  | .str s => .ok (hasSubstr ("defid".toList) s.toList)
  | .list l => .ok (l.contains (.str "defid"))
  | _ => .error .typeError

/-- The loop body `for entry in data: if 'defid' in data: ...` of
`_load_existing_defids` (lines 54-57), collecting the defids of one
parsed file in order.  `entry['defid']` on a string or list element
raises `TypeError` (string subscripts), and an unhashable defid makes
`set.add` raise `TypeError`. -/
def fileDefidsAux : List PyVal → Except PyError (List PyVal)
  | [] => .ok []
  | e :: es => do
    let b ← pyContainsDefid e
    if b then
      let v ← pyGetItem e "defid"
      if pyHashable v then
        let rest ← fileDefidsAux es
        .ok (v :: rest)
      else .error .typeError
    else fileDefidsAux es

/-- Iterating `for entry in data` over the parsed content of one dump
file: over a list, its elements; over a dict, its keys (each a string,
so an entry is collected only if a key has "defid" inside it — and then
subscripting the key raises `TypeError`); over a string, its characters
(each a one-character string, never containing "defid"); any other
parsed value is not iterable and raises `TypeError`. -/
def fileDefids : PyVal → Except PyError (List PyVal)
  | .list es => fileDefidsAux es
  | .dict d =>
    if d.any (fun kv => hasSubstr ("defid".toList) kv.1.toList) then
      .error .typeError
    else .ok []
  | .str _ => .ok []
  | _ => .error .typeError

/-- Model of `_load_existing_defids` (lines 45-62): walk the data
directory's files in listing order; a file that fails to parse (and the
race where it vanished) is caught as `JSONDecodeError` /
`FileNotFoundError`, logged as a warning and skipped; a parsed file has
every present defid added to the seen set.  Any other exception — such
as the `TypeError` from iterating a parsed non-list — propagates and
halts startup.  Returns the final seen set and the warnings emitted. -/
def _load_existing_defids (seen : Finset PyVal) :
    List FileData → Except PyError (Finset PyVal × List LogMsg)
  | [] => .ok (seen, [])
  | f :: fs =>
    match f with
    | .corrupt =>
      match _load_existing_defids seen fs with
      | .ok (s, w) => .ok (s, .warning "Failed to load existing data" :: w)
      | .error e => .error e
    | .absent =>
      match _load_existing_defids seen fs with
      | .ok (s, w) => .ok (s, .warning "Failed to load existing data" :: w)
      | .error e => .error e
    | .stored v =>
      match fileDefids v with
      | .error e => .error e
      | .ok ids => _load_existing_defids (seen ∪ ids.toFinset) fs

/-- Whole-system state threaded through runs: the seen-defid set, the
data directory of daily dump files keyed by date, and the dictionary
directory of letter index files keyed by bucket name. -/
structure SysState where
  seen : Finset PyVal
  daily : List (String × FileData)
  dict : List (String × FileData)
deriving DecidableEq

/-- Model of one invocation of `fetch_and_store` (lines 160-187) on the
raw records of its fetched batches, flattened in fetch order (`today` is
the date the run writes under).  The record loop filters and admits
entries while mutating the seen set; when at least one entry was
admitted, the daily dump and then the letter index are merged.  The
stats rewrite (line 185) only overwrites the derived `stats.json` and
swallows every exception, so it is not modelled. -/
def fetch_and_store (today : String) (st : SysState) (raws : List PyVal) :
    Except PyError SysState := do
  let rs ← processRecords ⟨st.seen, []⟩ raws
  match rs.new_entries with
  | [] => pure { st with seen := rs.seen }
  | _ => do
    let p ← _save_to_daily_dump (fileAt st.daily today) rs.new_entries
    let dict' ← _save_to_alphabetical_dict st.dict rs.new_entries
    pure ⟨rs.seen, storeSet st.daily today p.1, dict'⟩

/-- A sequence of complete runs, each with its date and its flattened
raw records. -/
def runSeq (st : SysState) :
    List (String × List PyVal) → Except PyError SysState
  | [] => .ok st
  | (d, raws) :: rest => do runSeq (← fetch_and_store d st raws) rest

/-- The defid stored in one element of a daily dump array, when the
element is an object with a "defid" key. -/
def entryDefid (e : PyVal) : Option PyVal :=
  match e with
  | .dict d => dictGet d "defid"
  | _ => Option.none

/-- The defids a daily dump file contains (a file that is absent,
unparseable, or not an array contains none). -/
def fileIds (f : FileData) : List PyVal :=
  match f with
  | .stored (.list es) => es.filterMap entryDefid
  | _ => []

/-- Well-formed daily dump content for the persistence invariant: a
stored file holds a serializable JSON array. -/
def DumpFileWF (f : FileData) : Prop :=
  match f with
  | .stored v => ∃ es, v = .list es ∧ pySerializableList es = true
  | _ => True

instance (f : FileData) : Decidable (DumpFileWF f) := by
  unfold DumpFileWF
  match f with
  | .absent => exact inferInstanceAs (Decidable True)
  | .corrupt => exact inferInstanceAs (Decidable True)
  | .stored v =>
    match v with
    | .list es =>
      refine decidable_of_iff (pySerializableList es = true) ?_
      constructor
      · intro h; exact ⟨es, rfl, h⟩
      · rintro ⟨es', he, h⟩; cases he; exact h
    | .none | .bool _ | .int _ | .str _ | .dict _ | .obj =>
      refine isFalse ?_
      rintro ⟨es, he, -⟩
      cases he

/-- The dump-side uniqueness invariant of the spec's data model: dates
are distinct, every seen defid occurs in exactly one daily file, every
defid stored in a daily file is seen, and every daily file is
well-formed. -/
def DumpInv (st : SysState) : Prop :=
  (st.daily.map Prod.fst).Nodup ∧
  (∀ id ∈ st.seen,
    st.daily.countP (fun p => decide (id ∈ fileIds p.2)) = 1) ∧
  (∀ p ∈ st.daily, ∀ id ∈ fileIds p.2, id ∈ st.seen) ∧
  (∀ p ∈ st.daily, DumpFileWF p.2)

/-- The list a letter-group dict holds under a bucket name (empty when
the bucket is not present). -/
def groupAt (gs : List (String × List Entry)) (k : String) : List Entry :=
  match gs with
  | [] => []
  | (k', es) :: rest => if k' = k then es else groupAt rest k

/-- The list an index dict holds under a word — the empty list when the
word is absent or its value is not a list. -/
def getList (d : List (String × PyVal)) (w : String) : List PyVal :=
  match dictGet d w with
  | some (.list l) => l
  | _ => []

/-- Well-formed letter index content: every value is a list, as every
index this program writes has. -/
def wfValuesList (d : List (String × PyVal)) : Bool :=
  d.all (fun kv =>
    match kv.2 with
    | .list _ => true
    | _ => false)

/-- Well-formed daily dump array element for the bootstrap scan: an
object whose defid, when present, is hashable. -/
def goodEntry (e : PyVal) : Bool :=
  match e with
  | .dict d =>
    match dictGet d "defid" with
    | some id => pyHashable id
    | Option.none => true
  | _ => false

/-- Dump file contents over which the bootstrap scan is exception-free:
absent and unparseable files are caught, and a parsed file must be an
array of well-formed objects. -/
def goodDump (f : FileData) : Bool :=
  match f with
  | .stored (.list es) => es.all goodEntry
  | .stored _ => false
  | _ => true

/-- All defids stored across a list of dump files, in file order. -/
def allFileIds (fs : List FileData) : List PyVal :=
  (fs.map fileIds).flatten

/-- In how many daily dump files of a state a defid occurs. -/
def dumpCount (st : SysState) (id : PyVal) : Nat :=
  st.daily.countP (fun p => decide (id ∈ fileIds p.2))

/-- The warnings the bootstrap scan emits on a list of files: one per
file that could not be read or parsed (lines 58-60). -/
def bootWarnings : List FileData → List LogMsg
  | [] => []
  | .corrupt :: fs => .warning "Failed to load existing data" :: bootWarnings fs
  | .absent :: fs => .warning "Failed to load existing data" :: bootWarnings fs
  | .stored _ :: fs => bootWarnings fs

/-!
Theorems.  Each claim of the specification is settled by one theorem
below; shared helper lemmas come first or in between, and concrete
witness theorems instantiate the hypotheses of the quantified ones.
-/

/-- C8: invoking the daily dump merge or the letter-index merge with an
empty new-entries list returns at once (lines 99-100 and 120-121) and
leaves every on-disk file unchanged — the empty list is an identity
element for both merge operations. -/
theorem empty_entries_merge_identity :
    ∀ (file : FileData) (store : List (String × FileData)),
      _save_to_daily_dump file [] = .ok (file, []) ∧
      _save_to_alphabetical_dict store [] = .ok store :=
  fun _ _ => ⟨rfl, rfl⟩

/-- C9: a raw record holding all five required keys but a non-string
`word` makes `_extract_entry_data` raise `AttributeError` at `.strip()`
— only `KeyError` is caught — and the exception aborts the processing
of the remaining records of the batch: the well-formed record following
it is never admitted. -/
theorem extract_nonstring_raises_attribute_error :
    _extract_entry_data (.dict [("defid", .int 2), ("word", .int 5),
      ("definition", .str "d"), ("example", .str "e"),
      ("written_on", .str "t")]) = .error .attributeError ∧
    processRecords ⟨∅, []⟩
      [.dict [("defid", .int 2), ("word", .int 5), ("definition", .str "d"),
              ("example", .str "e"), ("written_on", .str "t")],
       .dict [("defid", .int 3), ("word", .str "Dog"),
              ("definition", .str "d"), ("example", .str "e"),
              ("written_on", .str "t")]] = .error .attributeError :=
  ⟨rfl, rfl⟩

/-- C10: a stored dump file whose content is valid JSON but not an
array — here the bare number 5 — makes `_load_existing_defids` raise an
uncaught `TypeError` when `for entry in data` iterates it, halting
bootstrap: a well-formed file listed after it is never scanned.  An
unparseable file, by contrast, is caught and merely logged. -/
theorem bootstrap_nonlist_raises_type_error :
    _load_existing_defids ∅ [.stored (.int 5)] = .error .typeError ∧
    _load_existing_defids ∅
      [.stored (.int 5),
       .stored (.list [.dict [("defid", .int 7)]])] = .error .typeError ∧
    _load_existing_defids ∅ [.corrupt] =
      .ok (∅, [.warning "Failed to load existing data"]) :=
  ⟨rfl, rfl, rfl⟩

/-- C6: on a raw record carrying all of defid, word, definition,
example, written_on (the textual three bound to strings, which is what
`.strip()` presupposes), `_extract_entry_data` returns the normalized
entry with the textual fields trimmed of leading and trailing
whitespace; when any required field is missing it returns `None` — the
record is silently dropped rather than a structural error raised — and
a `None` result leaves the remaining records of the batch processed
exactly as before. -/
theorem extract_entry_behaviour :
    (∀ (d : List (String × PyVal)) (dv wv : PyVal) (w df ex : String),
      dictGet d "defid" = some dv →
      dictGet d "word" = some (.str w) →
      dictGet d "definition" = some (.str df) →
      dictGet d "example" = some (.str ex) →
      dictGet d "written_on" = some wv →
      _extract_entry_data (.dict d) =
        .ok (some ⟨dv, pyStrip w, pyStrip df, pyStrip ex, wv⟩)) ∧
    (∀ (d : List (String × PyVal)),
      (∀ v, dictGet d "word" = some v → ∃ s, v = PyVal.str s) →
      (∀ v, dictGet d "definition" = some v → ∃ s, v = PyVal.str s) →
      (∀ v, dictGet d "example" = some v → ∃ s, v = PyVal.str s) →
      (dictGet d "defid" = Option.none ∨ dictGet d "word" = Option.none ∨
       dictGet d "definition" = Option.none ∨
       dictGet d "example" = Option.none ∨
       dictGet d "written_on" = Option.none) →
      _extract_entry_data (.dict d) = .ok Option.none) ∧
    (∀ (st : RunState) (raw : PyVal) (rs : List PyVal),
      _extract_entry_data raw = .ok Option.none →
      processRecords st (raw :: rs) = processRecords st rs) := by
  refine ⟨?_, ?_, ?_⟩
  · intro d dv wv w df ex h1 h2 h3 h4 h5
    simp [_extract_entry_data, tryExtract, pyGetItem, h1, h2, h3, h4, h5,
      pyStripVal, Except.instMonad, Except.bind, Except.pure]
  · intro d hw hd he hmiss
    unfold _extract_entry_data tryExtract
    cases h1 : dictGet d "defid" with
    | none => simp [pyGetItem, h1, Except.instMonad, Except.bind]
    | some dv =>
      cases h2 : dictGet d "word" with
      | none => simp [pyGetItem, h1, h2, Except.instMonad, Except.bind]
      | some v2 =>
        obtain ⟨w, rfl⟩ := hw v2 h2
        cases h3 : dictGet d "definition" with
        | none => simp [pyGetItem, h1, h2, h3, pyStripVal, Except.instMonad, Except.bind]
        | some v3 =>
          obtain ⟨df, rfl⟩ := hd v3 h3
          cases h4 : dictGet d "example" with
          | none => simp [pyGetItem, h1, h2, h3, h4, pyStripVal, Except.instMonad, Except.bind]
          | some v4 =>
            obtain ⟨ex, rfl⟩ := he v4 h4
            cases h5 : dictGet d "written_on" with
            | none => simp [pyGetItem, h1, h2, h3, h4, h5, pyStripVal, Except.instMonad, Except.bind]
            | some wv => rcases hmiss with h | h | h | h | h <;> simp_all
  · intro st raw rs hnone
    simp [processRecords, processRecord, hnone, Except.instMonad, Except.bind,
      Except.pure]

/-- Witness for `extract_entry_behaviour` at concrete records: a fully
populated record is normalized with its word trimmed, and a record
missing `example` yields `None`. -/
theorem extract_entry_behaviour_witness :
    _extract_entry_data (.dict [("defid", .int 1), ("word", .str " Cat "),
      ("definition", .str "d"), ("example", .str "e"),
      ("written_on", .str "t")]) =
      .ok (some ⟨.int 1, pyStrip " Cat ", pyStrip "d", pyStrip "e", .str "t"⟩) ∧
    _extract_entry_data (.dict [("defid", .int 3), ("word", .str "Dog"),
      ("definition", .str "d"), ("written_on", .str "t")]) =
      .ok Option.none := by
  constructor
  · exact extract_entry_behaviour.1 _ (.int 1) (.str "t") " Cat " "d" "e"
      rfl rfl rfl rfl rfl
  · exact extract_entry_behaviour.2.1 _
      (fun v h => ⟨"Dog", (Option.some.inj (h : some (PyVal.str "Dog") = some v)).symm⟩)
      (fun v h => ⟨"d", (Option.some.inj (h : some (PyVal.str "d") = some v)).symm⟩)
      (fun v h => by cases (h : Option.none = some v))
      (Or.inr (Or.inr (Or.inr (Or.inl rfl))))

theorem groupAt_groupAppend_self (gs : List (String × List Entry))
    (k : String) (e : Entry) :
    groupAt (groupAppend gs k e) k = groupAt gs k ++ [e] := by
  induction gs with
  | nil => simp [groupAppend, groupAt]
  | cons p rest ih =>
    obtain ⟨k', es⟩ := p
    by_cases h : k' = k
    · subst h
      simp [groupAppend, groupAt]
    · simp [groupAppend, groupAt, h, ih]

theorem groupAt_groupAppend_other (gs : List (String × List Entry))
    (k k' : String) (e : Entry) (h : k' ≠ k) :
    groupAt (groupAppend gs k e) k' = groupAt gs k' := by
  induction gs with
  | nil =>
    simp only [groupAppend, groupAt]
    rw [if_neg (fun hh => h hh.symm)]
  | cons p rest ih =>
    obtain ⟨k'', es⟩ := p
    by_cases h2 : k'' = k
    · subst h2
      simp only [groupAppend, if_pos rfl, groupAt]
      rw [if_neg (fun hh => h hh.symm), if_neg (fun hh => h hh.symm)]
    · simp only [groupAppend, if_neg h2, groupAt]
      by_cases h3 : k'' = k'
      · rw [if_pos h3, if_pos h3]
      · rw [if_neg h3, if_neg h3, ih]

theorem groupAppend_keys (gs : List (String × List Entry)) (k : String)
    (e : Entry) :
    (groupAppend gs k e).map Prod.fst =
      if k ∈ gs.map Prod.fst then gs.map Prod.fst
      else gs.map Prod.fst ++ [k] := by
  induction gs with
  | nil => simp [groupAppend]
  | cons p rest ih =>
    obtain ⟨k', es⟩ := p
    by_cases h : k' = k
    · subst h
      simp [groupAppend]
    · have hne : ¬ k = k' := fun hh => h hh.symm
      simp only [groupAppend, if_neg h, List.map_cons]
      rw [ih]
      by_cases hk : k ∈ rest.map Prod.fst
      · rw [if_pos hk, if_pos (List.mem_cons.mpr (Or.inr hk))]
      · rw [if_neg hk,
          if_neg (fun hmem => (List.mem_cons.mp hmem).elim hne hk)]
        simp

theorem groupAppend_keys_nodup (gs : List (String × List Entry))
    (k : String) (e : Entry) (h : (gs.map Prod.fst).Nodup) :
    ((groupAppend gs k e).map Prod.fst).Nodup := by
  rw [groupAppend_keys]
  split
  · exact h
  · rename_i hnot
    simp [List.nodup_append, h, hnot]

theorem groupByLetterAux_keys_nodup :
    ∀ (es : List Entry) (acc : List (String × List Entry)),
      (acc.map Prod.fst).Nodup →
      ((groupByLetterAux acc es).map Prod.fst).Nodup
  | [], acc, h => h
  | e :: es, acc, h => by
    unfold groupByLetterAux
    cases bucketOf e.word with
    | none => exact groupByLetterAux_keys_nodup es acc h
    | some b =>
      exact groupByLetterAux_keys_nodup es _ (groupAppend_keys_nodup acc b e h)

theorem groupAt_groupByLetterAux :
    ∀ (es : List Entry) (acc : List (String × List Entry)) (k : String),
      groupAt (groupByLetterAux acc es) k =
        groupAt acc k ++
          es.filter (fun e => decide (bucketOf e.word = some k))
  | [], acc, k => by simp [groupByLetterAux]
  | e :: es, acc, k => by
    unfold groupByLetterAux
    cases hb : bucketOf e.word with
    | none =>
      rw [groupAt_groupByLetterAux es acc k]
      simp [List.filter_cons, hb]
    | some b =>
      by_cases hk : b = k
      · subst hk
        rw [groupAt_groupByLetterAux es _ _, groupAt_groupAppend_self]
        simp [List.filter_cons, hb]
      · rw [groupAt_groupByLetterAux es _ k,
          groupAt_groupAppend_other acc b k e (Ne.symm hk)]
        simp [List.filter_cons, hb, hk]

theorem dictGet_dictSet_self (d : List (String × PyVal)) (k : String)
    (v : PyVal) : dictGet (dictSet d k v) k = some v := by
  induction d with
  | nil => simp [dictSet, dictGet]
  | cons p rest ih =>
    obtain ⟨k', v'⟩ := p
    by_cases h : k' = k
    · subst h
      simp [dictSet, dictGet]
    · simp [dictSet, dictGet, h, ih]

theorem dictGet_dictSet_other (d : List (String × PyVal)) (k k' : String)
    (v : PyVal) (h : k' ≠ k) :
    dictGet (dictSet d k v) k' = dictGet d k' := by
  induction d with
  | nil =>
    simp only [dictSet, dictGet]
    rw [if_neg (fun hh => h hh.symm)]
  | cons p rest ih =>
    obtain ⟨k'', v''⟩ := p
    by_cases h2 : k'' = k
    · subst h2
      simp only [dictSet, if_pos rfl, dictGet]
      rw [if_neg (fun hh => h hh.symm), if_neg (fun hh => h hh.symm)]
    · simp only [dictSet, if_neg h2, dictGet]
      by_cases h3 : k'' = k'
      · rw [if_pos h3, if_pos h3]
      · rw [if_neg h3, if_neg h3, ih]

theorem getList_dictSet (d : List (String × PyVal)) (k w : String)
    (l : List PyVal) :
    getList (dictSet d k (.list l)) w = if w = k then l else getList d w := by
  by_cases h : w = k
  · subst h
    simp [getList, dictGet_dictSet_self]
  · simp [getList, dictGet_dictSet_other d k w _ h, h]

theorem wfValuesList_get (d : List (String × PyVal))
    (h : wfValuesList d = true) (k : String) (v : PyVal)
    (hg : dictGet d k = some v) : ∃ l, v = PyVal.list l := by
  induction d with
  | nil => cases hg
  | cons p rest ih =>
    obtain ⟨k', v'⟩ := p
    rw [wfValuesList, List.all_cons, Bool.and_eq_true] at h
    by_cases hk : k' = k
    · rw [dictGet, if_pos hk] at hg
      obtain rfl := Option.some.inj hg
      cases v' with
      | list l => exact ⟨l, rfl⟩
      | none => exact nomatch h.1
      | bool b => exact nomatch h.1
      | int n => exact nomatch h.1
      | str s => exact nomatch h.1
      | dict dd => exact nomatch h.1
      | obj => exact nomatch h.1
    · rw [dictGet, if_neg hk] at hg
      exact ih h.2 hg

theorem wfValuesList_dictSet (d : List (String × PyVal)) (k : String)
    (l : List PyVal) (h : wfValuesList d = true) :
    wfValuesList (dictSet d k (.list l)) = true := by
  induction d with
  | nil => simp [dictSet, wfValuesList]
  | cons p rest ih =>
    obtain ⟨k', v'⟩ := p
    rw [wfValuesList, List.all_cons, Bool.and_eq_true] at h
    by_cases hk : k' = k
    · subst hk
      simp [dictSet, wfValuesList, List.all_cons, h.2]
    · simp only [dictSet, if_neg hk, wfValuesList, List.all_cons,
        Bool.and_eq_true]
      exact ⟨h.1, ih h.2⟩

theorem dictAppendRecord_wf (d : List (String × PyVal)) (w : String)
    (rec : PyVal) (h : wfValuesList d = true) :
    dictAppendRecord d w rec =
      .ok (dictSet d w (.list (getList d w ++ [rec]))) := by
  cases hg : dictGet d w with
  | none => simp [dictAppendRecord, hg, getList]
  | some v =>
    obtain ⟨l, rfl⟩ := wfValuesList_get d h w v hg
    simp [dictAppendRecord, hg, getList]

theorem dictAppendAll_spec :
    ∀ (les : List Entry) (d : List (String × PyVal)),
      wfValuesList d = true →
      ∃ d', dictAppendAll d les = .ok d' ∧ wfValuesList d' = true ∧
        ∀ w, getList d' w =
          getList d w ++ ((les.filter (fun e => e.word == w)).map defRecordOf)
  | [], d, h => ⟨d, rfl, h, by simp⟩
  | e :: les, d, h => by
    have hstep := dictAppendRecord_wf d e.word (defRecordOf e) h
    have hwf1 := wfValuesList_dictSet d e.word
      (getList d e.word ++ [defRecordOf e]) h
    obtain ⟨d', hall, hwf', hget⟩ := dictAppendAll_spec les _ hwf1
    refine ⟨d', ?_, hwf', ?_⟩
    · simp [dictAppendAll, hstep, Except.instMonad, Except.bind, hall]
    · intro w
      rw [hget w, getList_dictSet]
      by_cases hw : w = e.word
      · subst hw
        simp [List.filter_cons]
      · have hbe : (e.word == w) = false := by
          rw [beq_eq_false_iff_ne]
          exact fun hh => hw hh.symm
        simp [List.filter_cons, hbe, hw]

theorem mergeLetterFile_wf (d d' : List (String × PyVal))
    (les : List Entry) (hall : dictAppendAll d les = .ok d')
    (hv : _validate_json (.dict d') = true) :
    mergeLetterFile (.stored (.dict d)) les = .ok (.stored (.dict d')) := by
  simp [mergeLetterFile, hall, hv]

/-- C2 as stated is refuted at an entry whose word is empty: lines
125-127 guard the letter grouping with `if word:`, so an empty-word
entry is dropped from the letter index entirely — it is placed in no
bucket, not in the catch-all bucket, and no file of the dictionary
directory is created or changed for it. -/
theorem empty_word_lands_in_no_bucket :
    letter_groups [⟨.int 7, "", "d", "e", .str "t"⟩] = [] ∧
    groupAt (letter_groups [⟨.int 7, "", "d", "e", .str "t"⟩]) "OTHER" = [] ∧
    _save_to_alphabetical_dict [] [⟨.int 7, "", "d", "e", .str "t"⟩] =
      .ok [] :=
  ⟨rfl, rfl, rfl⟩

/-- C2 amended: every entry whose word is non-empty is placed in exactly
one bucket — the uppercased first character of the word when that is
alphabetic, the fixed catch-all "OTHER" when not — while an entry whose
word is empty is placed in no bucket (silently dropped); bucket names
are pairwise distinct; and within a bucket each entry's
definition-record is appended to the list keyed by its exact,
case-preserved word, the key being created when new. -/
theorem letter_partition_amended :
    (∀ (entries : List Entry) (k : String),
      groupAt (letter_groups entries) k =
        entries.filter (fun e => decide (bucketOf e.word = some k))) ∧
    (∀ entries : List Entry, ((letter_groups entries).map Prod.fst).Nodup) ∧
    (∀ (c : Char) (cs : List Char),
      bucketOf (String.mk (c :: cs)) =
        some (if (Char.toUpper c).isAlpha then String.mk [Char.toUpper c]
              else "OTHER")) ∧
    bucketOf "" = Option.none ∧
    (∀ (les : List Entry) (d : List (String × PyVal)),
      wfValuesList d = true →
      ∃ d', dictAppendAll d les = .ok d' ∧ wfValuesList d' = true ∧
        ∀ w, getList d' w =
          getList d w ++
            ((les.filter (fun e => e.word == w)).map defRecordOf)) ∧
    (∀ (d d' : List (String × PyVal)) (les : List Entry),
      dictAppendAll d les = .ok d' →
      _validate_json (.dict d') = true →
      mergeLetterFile (.stored (.dict d)) les = .ok (.stored (.dict d'))) := by
  refine ⟨?_, ?_, fun c cs => rfl, rfl, fun les d h => dictAppendAll_spec les d h,
    fun d d' les h1 h2 => mergeLetterFile_wf d d' les h1 h2⟩
  · intro entries k
    rw [letter_groups, groupAt_groupByLetterAux]
    simp [groupAt]
  · intro entries
    exact groupByLetterAux_keys_nodup entries [] (by simp)

/-- Witness for `letter_partition_amended`: "Apple" is grouped in bucket
"A" while "42Coins" is not, and merging one "Apple" entry into an empty
letter file creates the key "Apple" holding its definition-record. -/
theorem letter_partition_amended_witness :
    groupAt (letter_groups [⟨.int 1, "Apple", "d", "e", .str "t"⟩,
        ⟨.int 8, "42Coins", "d", "e", .str "t"⟩]) "A" =
      List.filter (fun e => decide (bucketOf e.word = some "A"))
        [⟨.int 1, "Apple", "d", "e", .str "t"⟩,
         ⟨.int 8, "42Coins", "d", "e", .str "t"⟩] ∧
    mergeLetterFile (.stored (.dict []))
        [⟨.int 1, "Apple", "d", "e", .str "t"⟩] =
      .ok (.stored (.dict [("Apple",
        .list [defRecordOf ⟨.int 1, "Apple", "d", "e", .str "t"⟩])])) :=
  ⟨letter_partition_amended.1 _ "A",
   letter_partition_amended.2.2.2.2.2 []
     [("Apple", .list [defRecordOf ⟨.int 1, "Apple", "d", "e", .str "t"⟩])]
     [⟨.int 1, "Apple", "d", "e", .str "t"⟩] (by decide) (by decide)⟩

theorem pySerializableList_append (a b : List PyVal) :
    pySerializableList (a ++ b) =
      (pySerializableList a && pySerializableList b) := by
  induction a with
  | nil => simp [pySerializableList]
  | cons v vs ih => simp [pySerializableList, ih, Bool.and_assoc]

/-- C3: for every non-empty list of new entries (serializable, as every
entry extracted from parsed JSON is), the daily dump merge overwrites
the current date's file with exactly the previously stored sequence —
the empty sequence when the file is absent or fails to parse — followed
by the new entries in their given order: no dedup, no reordering, and a
whole-file overwrite. -/
theorem daily_dump_merge_appends :
    ∀ (entries : List Entry) (file : FileData),
      entries ≠ [] →
      pySerializableList (entries.map entryToPyVal) = true →
      ((file = .absent ∨ file = .corrupt →
        _save_to_daily_dump file entries =
          .ok (.stored (.list (entries.map entryToPyVal)), [])) ∧
       (∀ l, file = .stored (.list l) → pySerializableList l = true →
        _save_to_daily_dump file entries =
          .ok (.stored (.list (l ++ entries.map entryToPyVal)), []))) := by
  intro entries file hne hser
  constructor
  · rintro (rfl | rfl) <;>
    · cases entries with
      | nil => exact absurd rfl hne
      | cons e es =>
        simp [_save_to_daily_dump, readDailyExisting, _validate_json,
          pySerializable, hser]
        simpa using hser
  · rintro l rfl hl
    cases entries with
    | nil => exact absurd rfl hne
    | cons e es =>
      simp [_save_to_daily_dump, readDailyExisting, _validate_json,
        pySerializable, pySerializableList_append, hser, hl]
      simpa using hser

/-- Witness for `daily_dump_merge_appends`: one stored entry followed by
one new entry gives the two-element stored sequence, old first. -/
theorem daily_dump_merge_appends_witness :
    _save_to_daily_dump
        (.stored (.list [entryToPyVal ⟨.int 1, "Cat", "d", "e", .str "t"⟩]))
        [⟨.int 2, "Dog", "d", "e", .str "t"⟩] =
      .ok (.stored (.list
        ([entryToPyVal ⟨.int 1, "Cat", "d", "e", .str "t"⟩] ++
         [⟨.int 2, "Dog", "d", "e", .str "t"⟩].map entryToPyVal)), []) :=
  (daily_dump_merge_appends [⟨.int 2, "Dog", "d", "e", .str "t"⟩] _
    (by decide) (by decide)).2 _ rfl (by decide)

theorem fileAt_storeSet_refl (s : List (String × FileData)) (k : String) :
    ∀ d, fileAt (storeSet s k (fileAt s k)) d = fileAt s d := by
  induction s with
  | nil =>
    intro d
    by_cases h : k = d <;> simp [storeSet, fileAt, h]
  | cons p rest ih =>
    obtain ⟨k', v⟩ := p
    intro d
    by_cases h : k' = k
    · subst h
      simp [storeSet, fileAt]
    · simp only [fileAt, if_neg h, storeSet]
      by_cases h2 : k' = d <;> simp [fileAt, h2, ih d, h]

/-- C4 as stated is refuted on the warning conjunct: at an entry whose
`written_on` is not serializable, validation of the merged daily dump
fails and the write is aborted with the file unchanged — but the log
output of `_save_to_daily_dump` is empty: lines 115-117 have no `else`
branch and the function contains no logging call, so no warning is
reported. -/
theorem daily_dump_validation_failure_is_silent :
    _validate_json (.list ([] ++
      [(⟨.int 9, "a", "d", "e", PyVal.obj⟩ : Entry)].map entryToPyVal)) =
        false ∧
    _save_to_daily_dump .absent [⟨.int 9, "a", "d", "e", PyVal.obj⟩] =
      .ok (.absent, ([] : List LogMsg)) :=
  ⟨rfl, rfl⟩

/-- C4 amended: when serialization validation of the merged daily dump
data fails, the write to that file is aborted leaving the on-disk file
unchanged and no warning is reported (the abort is silent); the other
writes of the run are unaffected — the letter-index merge still runs —
and the SeenIdSet additions for the run's entries are not rolled back. -/
theorem daily_dump_validation_failure_amended :
    (∀ (file : FileData) (entries : List Entry) (l : List PyVal),
      entries ≠ [] →
      readDailyExisting file = .ok l →
      _validate_json (.list (l ++ entries.map entryToPyVal)) = false →
      _save_to_daily_dump file entries = .ok (file, [])) ∧
    (∀ (today : String) (st : SysState) (raws : List PyVal) (rs : RunState)
       (dict' : List (String × FileData)),
      processRecords ⟨st.seen, []⟩ raws = .ok rs →
      rs.new_entries ≠ [] →
      _save_to_daily_dump (fileAt st.daily today) rs.new_entries =
        .ok (fileAt st.daily today, []) →
      _save_to_alphabetical_dict st.dict rs.new_entries = .ok dict' →
      fetch_and_store today st raws =
        .ok ⟨rs.seen, storeSet st.daily today (fileAt st.daily today), dict'⟩ ∧
      (∀ dte, fileAt (storeSet st.daily today (fileAt st.daily today)) dte =
        fileAt st.daily dte)) := by
  constructor
  · intro file entries l hne hread hval
    cases entries with
    | nil => exact absurd rfl hne
    | cons e es =>
      simp only [List.map_cons] at hval
      simp [_save_to_daily_dump, hread, hval]
  · intro today st raws rs dict' hpr hne hsave halpha
    refine ⟨?_, fileAt_storeSet_refl st.daily today⟩
    cases hes : rs.new_entries with
    | nil => exact absurd hes hne
    | cons e es =>
      simp [fetch_and_store, hpr, Except.instMonad, Except.bind, Except.pure,
        hes, hes ▸ hsave, hes ▸ halpha]

/-- Witness for `daily_dump_validation_failure_amended` at a concrete
non-serializable entry: the dump merge aborts silently with the file
unchanged, while the same run still writes the letter index and keeps
the admitted defid in the seen set. -/
theorem daily_dump_validation_failure_amended_witness :
    _save_to_daily_dump .absent [⟨.int 9, "a", "d", "e", PyVal.obj⟩] =
      .ok (.absent, []) ∧
    fetch_and_store "2025-01-01" ⟨∅, [], []⟩
        [.dict [("defid", .int 9), ("word", .str "a"),
                ("definition", .str "d"), ("example", .str "e"),
                ("written_on", PyVal.obj)]] =
      .ok ⟨{PyVal.int 9},
           storeSet [] "2025-01-01" (fileAt [] "2025-01-01"),
           [("A", .absent)]⟩ ∧
    fileAt (storeSet [] "2025-01-01" (fileAt [] "2025-01-01")) "2025-01-01" =
      fileAt [] "2025-01-01" := by
  refine ⟨daily_dump_validation_failure_amended.1 .absent _ []
    (by decide) rfl (by decide), ?_, ?_⟩
  · exact (daily_dump_validation_failure_amended.2 "2025-01-01" ⟨∅, [], []⟩ _
      ⟨{PyVal.int 9}, [⟨.int 9, "a", "d", "e", PyVal.obj⟩]⟩ [("A", .absent)]
      (by decide) (by decide) (by decide) (by decide)).1
  · exact (daily_dump_validation_failure_amended.2 "2025-01-01" ⟨∅, [], []⟩
      [.dict [("defid", .int 9), ("word", .str "a"), ("definition", .str "d"),
              ("example", .str "e"), ("written_on", PyVal.obj)]]
      ⟨{PyVal.int 9}, [⟨.int 9, "a", "d", "e", PyVal.obj⟩]⟩ [("A", .absent)]
      (by decide) (by decide) (by decide) (by decide)).2 "2025-01-01"

theorem fileDefidsAux_good :
    ∀ es : List PyVal, es.all goodEntry = true →
      fileDefidsAux es = .ok (es.filterMap entryDefid)
  | [], _ => rfl
  | e :: es, h => by
    rw [List.all_cons, Bool.and_eq_true] at h
    cases e with
    | dict d =>
      have ih := fileDefidsAux_good es h.2
      cases hg : dictGet d "defid" with
      | none =>
        simp [fileDefidsAux, pyContainsDefid, hg, Except.instMonad,
          Except.bind, ih, List.filterMap_cons, entryDefid]
      | some v =>
        have hh : pyHashable v = true := by
          have h1 := h.1
          rw [goodEntry, hg] at h1
          exact h1
        simp [fileDefidsAux, pyContainsDefid, hg, pyGetItem, hh,
          Except.instMonad, Except.bind, ih, List.filterMap_cons, entryDefid]
    | none => exact nomatch h.1
    | bool b => exact nomatch h.1
    | int n => exact nomatch h.1
    | str s => exact nomatch h.1
    | list l => exact nomatch h.1
    | obj => exact nomatch h.1

theorem load_defids_spec :
    ∀ (fs : List FileData), fs.all goodDump = true →
      ∀ s : Finset PyVal,
        _load_existing_defids s fs =
          .ok (s ∪ (allFileIds fs).toFinset, bootWarnings fs)
  | [], _, s => by simp [_load_existing_defids, allFileIds, bootWarnings]
  | .corrupt :: fs, h, s => by
    rw [List.all_cons, Bool.and_eq_true] at h
    simp [_load_existing_defids, load_defids_spec fs h.2 s, allFileIds,
      fileIds, bootWarnings]
  | .absent :: fs, h, s => by
    rw [List.all_cons, Bool.and_eq_true] at h
    simp [_load_existing_defids, load_defids_spec fs h.2 s, allFileIds,
      fileIds, bootWarnings]
  | .stored v :: fs, h, s => by
    rw [List.all_cons, Bool.and_eq_true] at h
    cases v with
    | list es =>
      have hfd : fileDefids (.list es) = .ok (es.filterMap entryDefid) :=
        fileDefidsAux_good es h.1
      rw [_load_existing_defids, hfd]
      show _load_existing_defids (s ∪ (es.filterMap entryDefid).toFinset) fs = _
      rw [load_defids_spec fs h.2 (s ∪ (es.filterMap entryDefid).toFinset)]
      simp [allFileIds, fileIds, bootWarnings, Finset.union_assoc]
    | none => exact nomatch h.1
    | bool b => exact nomatch h.1
    | int n => exact nomatch h.1
    | str s2 => exact nomatch h.1
    | dict d => exact nomatch h.1
    | obj => exact nomatch h.1

/-- C7: during bootstrap, an unparseable dump file contributes zero ids
to the seen set, is logged as a warning, and does not halt the scan;
every other dump file is still scanned and every defid present in a
parseable dump is added; and repeating the bootstrap over the same set
of dump files yields an identical seen set. -/
theorem bootstrap_corrupt_skipped_and_idempotent :
    ∀ (s : Finset PyVal) (fs : List FileData), fs.all goodDump = true →
      _load_existing_defids s fs =
        .ok (s ∪ (allFileIds fs).toFinset, bootWarnings fs) ∧
      _load_existing_defids s (.corrupt :: fs) =
        .ok (s ∪ (allFileIds fs).toFinset,
             .warning "Failed to load existing data" :: bootWarnings fs) ∧
      _load_existing_defids (s ∪ (allFileIds fs).toFinset) fs =
        .ok (s ∪ (allFileIds fs).toFinset, bootWarnings fs) := by
  intro s fs hwf
  refine ⟨load_defids_spec fs hwf s, ?_, ?_⟩
  · simp [_load_existing_defids, load_defids_spec fs hwf s]
  · have h2 := load_defids_spec fs hwf (s ∪ (allFileIds fs).toFinset)
    rwa [Finset.union_assoc, Finset.union_self] at h2

/-- Witness for `bootstrap_corrupt_skipped_and_idempotent` on one
parseable dump holding defid 7: with a corrupt file in front the scan
still collects defid 7 and logs one warning, and a second scan over the
same files leaves the seen set unchanged. -/
theorem bootstrap_corrupt_skipped_and_idempotent_witness :
    _load_existing_defids ∅ [.stored (.list [.dict [("defid", .int 7)]])] =
      .ok (∅ ∪ (allFileIds [.stored (.list [.dict [("defid", .int 7)]])]).toFinset,
           bootWarnings [.stored (.list [.dict [("defid", .int 7)]])]) ∧
    _load_existing_defids ∅
        [.corrupt, .stored (.list [.dict [("defid", .int 7)]])] =
      .ok (∅ ∪ (allFileIds [.stored (.list [.dict [("defid", .int 7)]])]).toFinset,
           .warning "Failed to load existing data" ::
             bootWarnings [.stored (.list [.dict [("defid", .int 7)]])]) ∧
    _load_existing_defids
        (∅ ∪ (allFileIds [.stored (.list [.dict [("defid", .int 7)]])]).toFinset)
        [.stored (.list [.dict [("defid", .int 7)]])] =
      .ok (∅ ∪ (allFileIds [.stored (.list [.dict [("defid", .int 7)]])]).toFinset,
           bootWarnings [.stored (.list [.dict [("defid", .int 7)]])]) :=
  bootstrap_corrupt_skipped_and_idempotent ∅
    [.stored (.list [.dict [("defid", .int 7)]])] (by decide)

theorem processRecord_eq (st : RunState) (raw : PyVal) :
    processRecord st raw =
      match _extract_entry_data raw with
      | .error e => .error e
      | .ok Option.none => .ok st
      | .ok (some e) =>
        if pyHashable e.defid then
          if e.defid ∈ st.seen then .ok st
          else .ok ⟨insert e.defid st.seen, st.new_entries ++ [e]⟩
        else .error .typeError := by
  cases hx : _extract_entry_data raw with
  | error e => simp [processRecord, hx, Except.instMonad, Except.bind]
  | ok o =>
    cases o with
    | none => simp [processRecord, hx, Except.instMonad, Except.bind, Except.pure]
    | some e =>
      by_cases hh : pyHashable e.defid
      · by_cases hm : e.defid ∈ st.seen <;>
          simp [processRecord, hx, hh, hm, Except.instMonad, Except.bind,
            Except.pure]
      · simp [processRecord, hx, hh, Except.instMonad, Except.bind]

theorem processRecord_some_mem (st : RunState) (raw : PyVal) (e : Entry)
    (hx : _extract_entry_data raw = .ok (some e))
    (hh : pyHashable e.defid = true) (hm : e.defid ∈ st.seen) :
    processRecord st raw = .ok st := by
  simp [processRecord, hx, hh, hm, Except.instMonad, Except.bind, Except.pure]

theorem processRecord_some_new (st : RunState) (raw : PyVal) (e : Entry)
    (hx : _extract_entry_data raw = .ok (some e))
    (hh : pyHashable e.defid = true) (hm : e.defid ∉ st.seen) :
    processRecord st raw =
      .ok ⟨insert e.defid st.seen, st.new_entries ++ [e]⟩ := by
  simp [processRecord, hx, hh, hm, Except.instMonad, Except.bind, Except.pure]

theorem processRecord_unhashable (st : RunState) (raw : PyVal) (e : Entry)
    (hx : _extract_entry_data raw = .ok (some e))
    (hh : pyHashable e.defid = false) :
    processRecord st raw = .error .typeError := by
  simp [processRecord, hx, hh, Except.instMonad, Except.bind]

theorem processRecords_spec :
    ∀ (raws : List PyVal) (s : Finset PyVal) (acc : List Entry)
      (st' : RunState),
      processRecords ⟨s, acc⟩ raws = .ok st' →
      ∃ tail es,
        st'.new_entries = acc ++ tail ∧
        extractedOk raws = .ok es ∧
        tail.Sublist es ∧
        st'.seen = s ∪ (tail.map Entry.defid).toFinset ∧
        (tail.map Entry.defid).Nodup ∧
        (∀ e ∈ tail, e.defid ∉ s) ∧
        (∀ e ∈ tail, ∃ r ∈ raws, _extract_entry_data r = .ok (some e))
  | [], s, acc, st', h => by
    rw [processRecords] at h
    obtain rfl : (⟨s, acc⟩ : RunState) = st' := Except.ok.inj h
    exact ⟨[], [], by simp, rfl, List.Sublist.refl [], by simp, by simp,
      by simp, by simp⟩
  | r :: rs, s, acc, st', h => by
    rw [processRecords] at h
    cases hx : _extract_entry_data r with
    | error e =>
      rw [processRecord_eq, hx] at h
      exact nomatch h
    | ok o =>
      cases o with
      | none =>
        rw [processRecord_eq, hx] at h
        have h' : processRecords ⟨s, acc⟩ rs = .ok st' := h
        obtain ⟨tail, es, h1, h2, h3, h4, h5, h6, h7⟩ :=
          processRecords_spec rs s acc st' h'
        refine ⟨tail, es, h1, ?_, h3, h4, h5, h6, ?_⟩
        · simp [extractedOk, hx, h2, Except.instMonad, Except.bind]
        · intro e he
          obtain ⟨r', hr', hre⟩ := h7 e he
          exact ⟨r', List.mem_cons_of_mem r hr', hre⟩
      | some e =>
        by_cases hh : pyHashable e.defid
        · by_cases hm : e.defid ∈ s
          · rw [processRecord_some_mem ⟨s, acc⟩ r e hx hh hm] at h
            have h' : processRecords ⟨s, acc⟩ rs = .ok st' := h
            obtain ⟨tail, es, h1, h2, h3, h4, h5, h6, h7⟩ :=
              processRecords_spec rs s acc st' h'
            refine ⟨tail, e :: es, h1, ?_, h3.cons e, h4, h5, h6, ?_⟩
            · simp [extractedOk, hx, h2, Except.instMonad, Except.bind]
            · intro e' he'
              obtain ⟨r', hr', hre⟩ := h7 e' he'
              exact ⟨r', List.mem_cons_of_mem r hr', hre⟩
          · rw [processRecord_some_new ⟨s, acc⟩ r e hx hh hm] at h
            have h' : processRecords ⟨insert e.defid s, acc ++ [e]⟩ rs =
                .ok st' := h
            obtain ⟨tail, es, h1, h2, h3, h4, h5, h6, h7⟩ :=
              processRecords_spec rs (insert e.defid s) (acc ++ [e]) st' h'
            refine ⟨e :: tail, e :: es, ?_, ?_, h3.cons₂ e, ?_, ?_, ?_, ?_⟩
            · rw [h1, List.append_assoc]
              rfl
            · simp [extractedOk, hx, h2, Except.instMonad, Except.bind]
            · rw [h4, List.map_cons, List.toFinset_cons,
                Finset.insert_union, Finset.union_insert]
            · rw [List.map_cons, List.nodup_cons]
              refine ⟨?_, h5⟩
              intro hmem
              obtain ⟨e', he', heq⟩ := List.mem_map.mp hmem
              exact absurd (heq ▸ Finset.mem_insert_self e.defid s) (h6 e' he')
            · intro e' he'
              rcases List.mem_cons.mp he' with rfl | he'
              · exact hm
              · intro hs
                exact h6 e' he' (Finset.mem_insert_of_mem hs)
            · intro e' he'
              rcases List.mem_cons.mp he' with rfl | he'
              · exact ⟨r, List.mem_cons_self r rs, hx⟩
              · obtain ⟨r', hr', hre⟩ := h7 e' he'
                exact ⟨r', List.mem_cons_of_mem r hr', hre⟩
        · rw [processRecord_unhashable ⟨s, acc⟩ r e hx
            (Bool.not_eq_true _ ▸ hh)] at h
          exact nomatch h

/-- C1: in the record loop of `fetch_and_store`, an extracted entry is
appended to the run's new-entries list exactly when its defid is not in
`seen_defids` at that moment, and its defid is recorded exactly when it
is appended (first conjunct); over a whole run started with seen set
`s`, the admitted entries follow fetch order — they form a sublist of
the successfully extracted entries — their defids are pairwise distinct
and fresh with respect to `s`, and the final seen set is `s` plus
exactly those defids (second conjunct); hence across two consecutive
runs no defid is ever admitted, and so persisted, twice (third
conjunct). -/
theorem dedup_admission :
    (∀ (st : RunState) (raw : PyVal) (e : Entry),
      _extract_entry_data raw = .ok (some e) → pyHashable e.defid = true →
      (e.defid ∉ st.seen →
        processRecord st raw =
          .ok ⟨insert e.defid st.seen, st.new_entries ++ [e]⟩) ∧
      (e.defid ∈ st.seen → processRecord st raw = .ok st)) ∧
    (∀ (raws : List PyVal) (s : Finset PyVal) (st' : RunState),
      processRecords ⟨s, []⟩ raws = .ok st' →
      ∃ es, extractedOk raws = .ok es ∧
        st'.new_entries.Sublist es ∧
        st'.seen = s ∪ (st'.new_entries.map Entry.defid).toFinset ∧
        (st'.new_entries.map Entry.defid).Nodup ∧
        (∀ e ∈ st'.new_entries, e.defid ∉ s)) ∧
    (∀ (raws1 raws2 : List PyVal) (s : Finset PyVal) (st1 st2 : RunState),
      processRecords ⟨s, []⟩ raws1 = .ok st1 →
      processRecords ⟨st1.seen, []⟩ raws2 = .ok st2 →
      ((st1.new_entries ++ st2.new_entries).map Entry.defid).Nodup) := by
  refine ⟨?_, ?_, ?_⟩
  · intro st raw e hx hh
    exact ⟨fun hm => processRecord_some_new st raw e hx hh hm,
           fun hm => processRecord_some_mem st raw e hx hh hm⟩
  · intro raws s st' h
    obtain ⟨tail, es, h1, h2, h3, h4, h5, h6, -⟩ :=
      processRecords_spec raws s [] st' h
    rw [List.nil_append] at h1
    subst h1
    exact ⟨es, h2, h3, h4, h5, h6⟩
  · intro raws1 raws2 s st1 st2 hr1 hr2
    obtain ⟨tail1, es1, h11, -, -, h14, h15, h16, -⟩ :=
      processRecords_spec raws1 s [] st1 hr1
    obtain ⟨tail2, es2, h21, -, -, h24, h25, h26, -⟩ :=
      processRecords_spec raws2 st1.seen [] st2 hr2
    rw [List.nil_append] at h11 h21
    subst h11
    subst h21
    rw [List.map_append, List.nodup_append]
    refine ⟨h15, h25, ?_⟩
    intro d hd1 hd2
    obtain ⟨e2, he2, rfl⟩ := List.mem_map.mp hd2
    apply h26 e2 he2
    rw [h14]
    exact Finset.mem_union_right s (List.mem_toFinset.mpr hd1)

/-- Witness for `dedup_admission`: defid 1 is admitted when unseen,
skipped when a duplicate arrives (even under a different word), and
across two consecutive runs the admitted defids 1 and 4 are distinct. -/
theorem dedup_admission_witness :
    processRecord ⟨∅, []⟩
        (.dict [("defid", .int 1), ("word", .str "Cat"),
                ("definition", .str "d"), ("example", .str "e"),
                ("written_on", .str "t")]) =
      .ok ⟨insert (PyVal.int 1) ∅,
           [] ++ [⟨.int 1, "Cat", "d", "e", .str "t"⟩]⟩ ∧
    processRecord ⟨insert (PyVal.int 1) ∅, []⟩
        (.dict [("defid", .int 1), ("word", .str "CatAgain"),
                ("definition", .str "d2"), ("example", .str "e2"),
                ("written_on", .str "t2")]) =
      .ok ⟨insert (PyVal.int 1) ∅, []⟩ ∧
    ((([(⟨.int 1, "Cat", "d", "e", .str "t"⟩ : Entry)] ++
       [(⟨.int 4, "Dog", "d", "e", .str "t"⟩ : Entry)]).map
        Entry.defid)).Nodup := by
  refine ⟨?_, ?_, ?_⟩
  · exact (dedup_admission.1 ⟨∅, []⟩ _ ⟨.int 1, "Cat", "d", "e", .str "t"⟩
      (by decide) (by decide)).1 (by decide)
  · exact (dedup_admission.1 ⟨insert (PyVal.int 1) ∅, []⟩ _
      ⟨.int 1, "CatAgain", "d2", "e2", .str "t2"⟩
      (by decide) (by decide)).2 (by decide)
  · exact dedup_admission.2.2
      [.dict [("defid", .int 1), ("word", .str "Cat"),
              ("definition", .str "d"), ("example", .str "e"),
              ("written_on", .str "t")]]
      [.dict [("defid", .int 1), ("word", .str "CatAgain"),
              ("definition", .str "d2"), ("example", .str "e2"),
              ("written_on", .str "t2")],
       .dict [("defid", .int 4), ("word", .str "Dog"),
              ("definition", .str "d"), ("example", .str "e"),
              ("written_on", .str "t")]]
      ∅ ⟨insert (PyVal.int 1) ∅, [⟨.int 1, "Cat", "d", "e", .str "t"⟩]⟩
      ⟨insert (PyVal.int 4) (insert (PyVal.int 1) ∅),
       [⟨.int 4, "Dog", "d", "e", .str "t"⟩]⟩
      (by decide) (by decide)

theorem extract_tryExtract (raw : PyVal) (e : Entry)
    (h : _extract_entry_data raw = .ok (some e)) : tryExtract raw = .ok e := by
  rw [_extract_entry_data] at h
  cases ht : tryExtract raw with
  | ok e' =>
    rw [ht] at h
    obtain rfl := Option.some.inj (Except.ok.inj h)
    rfl
  | error pe =>
    rw [ht] at h
    cases pe <;> simp at h

theorem pySerializableDict_get :
    ∀ (d : List (String × PyVal)), pySerializableDict d = true →
      ∀ (k : String) (v : PyVal), dictGet d k = some v →
        pySerializable v = true
  | [], _, k, v, hg => nomatch hg
  | (k', v') :: rest, h, k, v, hg => by
    rw [pySerializableDict, Bool.and_eq_true] at h
    by_cases hk : k' = k
    · rw [dictGet, if_pos hk] at hg
      obtain rfl := Option.some.inj hg
      exact h.1
    · rw [dictGet, if_neg hk] at hg
      exact pySerializableDict_get rest h.2 k v hg

theorem extract_serializable (raw : PyVal) (e : Entry)
    (hser : pySerializable raw = true)
    (hx : _extract_entry_data raw = .ok (some e)) :
    pySerializable (entryToPyVal e) = true := by
  have ht := extract_tryExtract raw e hx
  cases raw with
  | dict d =>
    rw [tryExtract] at ht
    cases h1 : dictGet d "defid" with
    | none => simp [pyGetItem, h1, Except.instMonad, Except.bind] at ht
    | some dv =>
    cases h2 : dictGet d "word" with
    | none => simp [pyGetItem, h1, h2, Except.instMonad, Except.bind] at ht
    | some v2 =>
    cases v2 with
    | str w =>
      cases h3 : dictGet d "definition" with
      | none =>
        simp [pyGetItem, pyStripVal, h1, h2, h3, Except.instMonad,
          Except.bind] at ht
      | some v3 =>
      cases v3 with
      | str df =>
        cases h4 : dictGet d "example" with
        | none =>
          simp [pyGetItem, pyStripVal, h1, h2, h3, h4, Except.instMonad,
            Except.bind] at ht
        | some v4 =>
        cases v4 with
        | str ex =>
          cases h5 : dictGet d "written_on" with
          | none =>
            simp [pyGetItem, pyStripVal, h1, h2, h3, h4, h5,
              Except.instMonad, Except.bind] at ht
          | some wv =>
            simp only [pyGetItem, pyStripVal, h1, h2, h3, h4, h5,
              Except.instMonad, Except.bind, Except.pure] at ht
            obtain rfl := (Except.ok.inj ht)
            have hdv := pySerializableDict_get d hser "defid" dv h1
            have hwv := pySerializableDict_get d hser "written_on" wv h5
            simp [entryToPyVal, pySerializable, pySerializableDict, hdv, hwv]
        | none =>
          simp [pyGetItem, pyStripVal, h1, h2, h3, h4, Except.instMonad,
            Except.bind] at ht
        | bool b =>
          simp [pyGetItem, pyStripVal, h1, h2, h3, h4, Except.instMonad,
            Except.bind] at ht
        | int n =>
          simp [pyGetItem, pyStripVal, h1, h2, h3, h4, Except.instMonad,
            Except.bind] at ht
        | list l =>
          simp [pyGetItem, pyStripVal, h1, h2, h3, h4, Except.instMonad,
            Except.bind] at ht
        | dict dd =>
          simp [pyGetItem, pyStripVal, h1, h2, h3, h4, Except.instMonad,
            Except.bind] at ht
        | obj =>
          simp [pyGetItem, pyStripVal, h1, h2, h3, h4, Except.instMonad,
            Except.bind] at ht
      | none =>
        simp [pyGetItem, pyStripVal, h1, h2, h3, Except.instMonad,
          Except.bind] at ht
      | bool b =>
        simp [pyGetItem, pyStripVal, h1, h2, h3, Except.instMonad,
          Except.bind] at ht
      | int n =>
        simp [pyGetItem, pyStripVal, h1, h2, h3, Except.instMonad,
          Except.bind] at ht
      | list l =>
        simp [pyGetItem, pyStripVal, h1, h2, h3, Except.instMonad,
          Except.bind] at ht
      | dict dd =>
        simp [pyGetItem, pyStripVal, h1, h2, h3, Except.instMonad,
          Except.bind] at ht
      | obj =>
        simp [pyGetItem, pyStripVal, h1, h2, h3, Except.instMonad,
          Except.bind] at ht
    | none =>
      simp [pyGetItem, pyStripVal, h1, h2, Except.instMonad, Except.bind] at ht
    | bool b =>
      simp [pyGetItem, pyStripVal, h1, h2, Except.instMonad, Except.bind] at ht
    | int n =>
      simp [pyGetItem, pyStripVal, h1, h2, Except.instMonad, Except.bind] at ht
    | list l =>
      simp [pyGetItem, pyStripVal, h1, h2, Except.instMonad, Except.bind] at ht
    | dict dd =>
      simp [pyGetItem, pyStripVal, h1, h2, Except.instMonad, Except.bind] at ht
    | obj =>
      simp [pyGetItem, pyStripVal, h1, h2, Except.instMonad, Except.bind] at ht
  | none => simp [tryExtract, pyGetItem, Except.instMonad, Except.bind] at ht
  | bool b => simp [tryExtract, pyGetItem, Except.instMonad, Except.bind] at ht
  | int n => simp [tryExtract, pyGetItem, Except.instMonad, Except.bind] at ht
  | str s => simp [tryExtract, pyGetItem, Except.instMonad, Except.bind] at ht
  | list l => simp [tryExtract, pyGetItem, Except.instMonad, Except.bind] at ht
  | obj => simp [tryExtract, pyGetItem, Except.instMonad, Except.bind] at ht

theorem filterMap_entryDefid_map (les : List Entry) :
    (les.map entryToPyVal).filterMap entryDefid = les.map Entry.defid := by
  induction les with
  | nil => rfl
  | cons e les ih =>
    simp only [List.map_cons, List.filterMap_cons]
    rw [show entryDefid (entryToPyVal e) = some e.defid from rfl, ih]

theorem fileIds_merged (l : List PyVal) (les : List Entry) :
    fileIds (.stored (.list (l ++ les.map entryToPyVal))) =
      l.filterMap entryDefid ++ les.map Entry.defid := by
  rw [fileIds, List.filterMap_append, filterMap_entryDefid_map]

theorem fileAt_cases :
    ∀ (s : List (String × FileData)) (k : String),
      fileAt s k = .absent ∨ (k, fileAt s k) ∈ s
  | [], k => Or.inl rfl
  | (k', v) :: rest, k => by
    by_cases h : k' = k
    · subst h
      right
      simp [fileAt]
    · rw [fileAt, if_neg h]
      rcases fileAt_cases rest k with hc | hc
      · exact Or.inl hc
      · exact Or.inr (List.mem_cons_of_mem _ hc)

theorem storeSet_not_mem :
    ∀ (s : List (String × FileData)) (k : String) (v : FileData),
      k ∉ s.map Prod.fst →
      storeSet s k v = s ++ [(k, v)] ∧ fileAt s k = .absent
  | [], k, v, _ => ⟨rfl, rfl⟩
  | (k', v') :: rest, k, v, h => by
    rw [List.map_cons, List.mem_cons] at h
    push_neg at h
    have hne : ¬ k' = k := fun hh => h.1 hh.symm
    have ih := storeSet_not_mem rest k v h.2
    constructor
    · rw [storeSet, if_neg hne, ih.1]
      rfl
    · rw [fileAt, if_neg hne, ih.2]

theorem storeSet_mem :
    ∀ (s : List (String × FileData)) (k : String) (v : FileData),
      (s.map Prod.fst).Nodup → k ∈ s.map Prod.fst →
      ∃ s₁ s₂, s = s₁ ++ (k, fileAt s k) :: s₂ ∧
        storeSet s k v = s₁ ++ (k, v) :: s₂ ∧
        k ∉ s₁.map Prod.fst ∧ k ∉ s₂.map Prod.fst
  | [], k, v, _, hm => absurd hm (by simp)
  | (k', v') :: rest, k, v, hnd, hm => by
    rw [List.map_cons, List.nodup_cons] at hnd
    by_cases h : k' = k
    · subst h
      refine ⟨[], rest, ?_, ?_, by simp, ?_⟩
      · simp [fileAt]
      · simp [storeSet]
      · exact hnd.1
    · rw [List.map_cons, List.mem_cons] at hm
      rcases hm with hm | hm
      · exact absurd hm.symm h
      · obtain ⟨s₁, s₂, he, hs, h1, h2⟩ := storeSet_mem rest k v hnd.2 hm
        refine ⟨(k', v') :: s₁, s₂, ?_, ?_, ?_, h2⟩
        · rw [fileAt, if_neg h]
          rw [List.cons_append]
          exact congrArg _ he
        · rw [storeSet, if_neg h, hs]
          rfl
        · rw [List.map_cons, List.mem_cons]
          push_neg
          exact ⟨fun hh => h hh.symm, h1⟩

theorem storeSet_keys (s : List (String × FileData)) (k : String)
    (v : FileData) :
    (storeSet s k v).map Prod.fst =
      if k ∈ s.map Prod.fst then s.map Prod.fst
      else s.map Prod.fst ++ [k] := by
  induction s with
  | nil => simp [storeSet]
  | cons p rest ih =>
    obtain ⟨k', v'⟩ := p
    by_cases h : k' = k
    · subst h
      simp [storeSet]
    · have hne : ¬ k = k' := fun hh => h hh.symm
      simp only [storeSet, if_neg h, List.map_cons]
      rw [ih]
      by_cases hk : k ∈ rest.map Prod.fst
      · rw [if_pos hk, if_pos (List.mem_cons.mpr (Or.inr hk))]
      · rw [if_neg hk,
          if_neg (fun hmem => (List.mem_cons.mp hmem).elim hne hk)]
        simp

theorem storeSet_keys_nodup (s : List (String × FileData)) (k : String)
    (v : FileData) (h : (s.map Prod.fst).Nodup) :
    ((storeSet s k v).map Prod.fst).Nodup := by
  rw [storeSet_keys]
  split
  · exact h
  · rename_i hnot
    simp [List.nodup_append, h, hnot]

theorem pySerializableList_iff (l : List PyVal) :
    pySerializableList l = true ↔ ∀ v ∈ l, pySerializable v = true := by
  induction l with
  | nil => simp [pySerializableList]
  | cons v vs ih => simp [pySerializableList, ih]

theorem save_dump_ok (file : FileData) (entries : List Entry)
    (l : List PyVal) (hne : entries ≠ [])
    (hread : readDailyExisting file = .ok l)
    (hval : _validate_json (.list (l ++ entries.map entryToPyVal)) = true) :
    _save_to_daily_dump file entries =
      .ok (.stored (.list (l ++ entries.map entryToPyVal)), []) := by
  cases entries with
  | nil => exact absurd rfl hne
  | cons e es =>
    simp only [List.map_cons] at hval
    simp [_save_to_daily_dump, hread, hval]

theorem mem_storeSet :
    ∀ (s : List (String × FileData)) (k : String) (v : FileData)
      (p : String × FileData),
      p ∈ storeSet s k v → p = (k, v) ∨ p ∈ s
  | [], k, v, p, h => by
    rw [storeSet] at h
    rcases List.mem_singleton.mp h with rfl
    exact Or.inl rfl
  | (k', v') :: rest, k, v, p, h => by
    rw [storeSet] at h
    by_cases hk : k' = k
    · rw [if_pos hk] at h
      subst hk
      rcases List.mem_cons.mp h with rfl | h
      · exact Or.inl rfl
      · exact Or.inr (List.mem_cons_of_mem _ h)
    · rw [if_neg hk] at h
      rcases List.mem_cons.mp h with rfl | h
      · exact Or.inr (List.mem_cons_self _ _)
      · rcases mem_storeSet rest k v p h with hc | hc
        · exact Or.inl hc
        · exact Or.inr (List.mem_cons_of_mem _ hc)

theorem countP_storeSet (s : List (String × FileData)) (k : String)
    (v old : FileData) (hnd : (s.map Prod.fst).Nodup)
    (hold : fileAt s k = old) (q : String × FileData → Bool)
    (hqa : q (k, FileData.absent) = false) :
    (storeSet s k v).countP q + (if q (k, old) then 1 else 0) =
      s.countP q + (if q (k, v) then 1 else 0) := by
  by_cases hm : k ∈ s.map Prod.fst
  · obtain ⟨s₁, s₂, he, hs, -, -⟩ := storeSet_mem s k v hnd hm
    rw [hold] at he
    rw [hs, he]
    simp only [List.countP_append, List.countP_cons]
    omega
  · obtain ⟨hs, hab⟩ := storeSet_not_mem s k v hm
    obtain rfl : old = .absent := hold.symm.trans hab
    rw [hs]
    simp [List.countP_append, List.countP_cons, hqa]

theorem fetch_preserves_dumpInv (today : String) (st st' : SysState)
    (raws : List PyVal)
    (hser : ∀ r ∈ raws, pySerializable r = true)
    (hinv : DumpInv st)
    (hok : fetch_and_store today st raws = .ok st') :
    DumpInv st' ∧ st.seen ⊆ st'.seen := by
  obtain ⟨hnd, hcount, hsub, hwf⟩ := hinv
  cases hpr : processRecords ⟨st.seen, []⟩ raws with
  | error e =>
    have hfwd : fetch_and_store today st raws = .error e := by
      simp [fetch_and_store, hpr, Except.instMonad, Except.bind]
    rw [hfwd] at hok
    exact nomatch hok
  | ok rs =>
  obtain ⟨tail, es, h1, -, -, h4, h5, h6, h7⟩ :=
    processRecords_spec raws st.seen [] rs hpr
  rw [List.nil_append] at h1
  subst h1
  have hentser : ∀ e ∈ rs.new_entries,
      pySerializable (entryToPyVal e) = true := by
    intro e he
    obtain ⟨r, hr, hre⟩ := h7 e he
    exact extract_serializable r e (hser r hr) hre
  cases htail : rs.new_entries with
  | nil =>
    have hfwd : fetch_and_store today st raws =
        .ok { st with seen := rs.seen } := by
      simp [fetch_and_store, hpr, Except.instMonad, Except.bind, Except.pure,
        htail]
    rw [hfwd] at hok
    obtain rfl := Except.ok.inj hok
    rw [htail] at h4
    have hseq : rs.seen = st.seen := by rw [h4]; simp
    constructor
    · show DumpInv { st with seen := rs.seen }
      rw [hseq]
      exact ⟨hnd, hcount, hsub, hwf⟩
    · show st.seen ⊆ rs.seen
      rw [hseq]
  | cons e0 es0 =>
    obtain ⟨oldl, hread, holdser, holdids⟩ :
        ∃ oldl, readDailyExisting (fileAt st.daily today) = .ok oldl ∧
          pySerializableList oldl = true ∧
          fileIds (fileAt st.daily today) = oldl.filterMap entryDefid := by
      have hwff : DumpFileWF (fileAt st.daily today) := by
        rcases fileAt_cases st.daily today with hc | hc
        · rw [hc]
          trivial
        · exact hwf _ hc
      cases hfc : fileAt st.daily today with
      | absent => exact ⟨[], rfl, rfl, rfl⟩
      | corrupt => exact ⟨[], rfl, rfl, rfl⟩
      | stored v =>
        rw [hfc] at hwff
        obtain ⟨es2, rfl, hses⟩ := hwff
        exact ⟨es2, rfl, hses, rfl⟩
    have hserl : pySerializableList (rs.new_entries.map entryToPyVal) = true := by
      rw [pySerializableList_iff]
      intro v hv
      obtain ⟨e, he, rfl⟩ := List.mem_map.mp hv
      exact hentser e he
    have hval : _validate_json
        (.list (oldl ++ rs.new_entries.map entryToPyVal)) = true := by
      show pySerializableList (oldl ++ rs.new_entries.map entryToPyVal) = true
      rw [pySerializableList_append, holdser, hserl]
      rfl
    have hne2 : rs.new_entries ≠ [] := by
      rw [htail]
      simp
    have hsaveC := save_dump_ok (fileAt st.daily today) rs.new_entries oldl
      hne2 hread hval
    have hids : fileIds (FileData.stored
        (.list (oldl ++ rs.new_entries.map entryToPyVal))) =
        fileIds (fileAt st.daily today) ++ rs.new_entries.map Entry.defid := by
      rw [fileIds_merged, holdids]
    cases halpha : _save_to_alphabetical_dict st.dict rs.new_entries with
    | error e2 =>
      have hfwd : fetch_and_store today st raws = .error e2 := by
        simp [fetch_and_store, hpr, Except.instMonad, Except.bind, htail,
          htail ▸ hsaveC, htail ▸ halpha]
      rw [hfwd] at hok
      exact nomatch hok
    | ok dict' =>
      have hfwd : fetch_and_store today st raws =
          .ok ⟨rs.seen, storeSet st.daily today
            (FileData.stored (.list (oldl ++ rs.new_entries.map entryToPyVal))),
            dict'⟩ := by
        simp [fetch_and_store, hpr, Except.instMonad, Except.bind, Except.pure,
          htail, htail ▸ hsaveC, htail ▸ halpha]
      rw [hfwd] at hok
      obtain rfl := Except.ok.inj hok
      constructor
      · refine ⟨storeSet_keys_nodup st.daily today _ hnd, ?_, ?_, ?_⟩ <;>
          dsimp only
        · intro id hid
          have hcnt := countP_storeSet st.daily today
            (FileData.stored (.list (oldl ++ rs.new_entries.map entryToPyVal)))
            (fileAt st.daily today) hnd rfl
            (fun p => decide (id ∈ fileIds p.2)) (by simp [fileIds])
          rw [h4, Finset.mem_union] at hid
          by_cases hidD : id ∈ rs.new_entries.map Entry.defid
          · have hidnot : id ∉ st.seen := by
              obtain ⟨e, he, rfl⟩ := List.mem_map.mp hidD
              exact h6 e he
            have hzero : st.daily.countP
                (fun p => decide (id ∈ fileIds p.2)) = 0 := by
              rw [List.countP_eq_zero]
              intro p hp
              simp only [decide_eq_true_eq]
              intro hmem
              exact hidnot (hsub p hp id hmem)
            have hqnew : (decide (id ∈ fileIds (FileData.stored
                (.list (oldl ++ rs.new_entries.map entryToPyVal)))) : Bool) =
                true := by
              simp [hids, List.mem_append, hidD]
            have hqold : (decide
                (id ∈ fileIds (fileAt st.daily today)) : Bool) = false := by
              simp only [decide_eq_false_iff_not]
              intro hmem
              rcases fileAt_cases st.daily today with hc | hc
              · rw [hc] at hmem
                exact absurd hmem (by simp [fileIds])
              · exact hidnot (hsub _ hc id hmem)
            simp [hqnew, hqold] at hcnt
            omega
          · have hidS : id ∈ st.seen := by
              rcases hid with hid | hid
              · exact hid
              · exact absurd (List.mem_toFinset.mp hid) hidD
            have hone := hcount id hidS
            have hqeq : (decide (id ∈ fileIds (FileData.stored
                (.list (oldl ++ rs.new_entries.map entryToPyVal)))) : Bool) =
                (decide (id ∈ fileIds (fileAt st.daily today)) : Bool) := by
              apply decide_eq_decide.mpr
              rw [hids, List.mem_append]
              constructor
              · rintro (h | h)
                · exact h
                · exact absurd h hidD
              · exact Or.inl
            simp [hqeq] at hcnt
            omega
        · intro p hp id hidp
          rcases mem_storeSet st.daily today _ p hp with rfl | hp2
          · rw [h4]
            rcases List.mem_append.mp (hids ▸ hidp) with hmem | hmem
            · rcases fileAt_cases st.daily today with hc | hc
              · rw [hc] at hmem
                exact absurd hmem (by simp [fileIds])
              · exact Finset.mem_union_left _ (hsub _ hc id hmem)
            · exact Finset.mem_union_right _ (List.mem_toFinset.mpr hmem)
          · rw [h4]
            exact Finset.mem_union_left _ (hsub p hp2 id hidp)
        · intro p hp
          rcases mem_storeSet st.daily today _ p hp with rfl | hp2
          · exact ⟨oldl ++ rs.new_entries.map entryToPyVal, rfl, by
              rw [pySerializableList_append, holdser, hserl]
              rfl⟩
          · exact hwf p hp2
      · show st.seen ⊆ rs.seen
        rw [h4]
        exact Finset.subset_union_left

/-- C5 amended: provided every raw record processed is JSON-serializable
— so every daily dump validation succeeds — runs preserve the dump
invariant: starting from a state where dates are distinct, every seen
defid is stored in exactly one daily dump, every stored defid is seen
and dump files are well-formed (in particular the fresh state after a
bootstrap of such dumps), after any sequence of completed runs every id
in SeenIdSet appears in exactly one DailyDump file.  (When a dump
validation fails, the claim as stated breaks: the admitted ids stay in
SeenIdSet but reach no dump — the spec's accepted inconsistency
window.) -/
theorem seen_ids_in_exactly_one_dump_amended :
    ∀ (runs : List (String × List PyVal)) (st st' : SysState),
      DumpInv st →
      (∀ p ∈ runs, ∀ r ∈ p.2, pySerializable r = true) →
      runSeq st runs = .ok st' →
      DumpInv st' ∧
      ∀ id ∈ st'.seen,
        st'.daily.countP (fun p => decide (id ∈ fileIds p.2)) = 1
  | [], st, st', hinv, _, hok => by
    rw [runSeq] at hok
    obtain rfl := Except.ok.inj hok
    exact ⟨hinv, hinv.2.1⟩
  | (d, raws) :: rest, st, st', hinv, hser, hok => by
    rw [runSeq] at hok
    cases hst1 : fetch_and_store d st raws with
    | error e =>
      rw [hst1] at hok
      exact nomatch hok
    | ok st1 =>
      rw [hst1] at hok
      have hok' : runSeq st1 rest = .ok st' := hok
      have h1 := fetch_preserves_dumpInv d st st1 raws
        (hser (d, raws) (List.mem_cons_self _ _)) hinv hst1
      exact seen_ids_in_exactly_one_dump_amended rest st1 st' h1.1
        (fun p hp => hser p (List.mem_cons_of_mem _ hp)) hok'

/-- C5 as stated is refuted through the accepted inconsistency window:
a run that admits the entry with defid 9 but whose daily dump
validation fails (its `written_on` is not serializable) completes
normally, leaves defid 9 in SeenIdSet, yet stores it in zero daily
dump files — not exactly one. -/
theorem seen_id_in_no_dump_after_failed_write :
    fetch_and_store "2025-01-01" ⟨∅, [], []⟩
        [.dict [("defid", .int 9), ("word", .str "a"),
                ("definition", .str "d"), ("example", .str "e"),
                ("written_on", PyVal.obj)]] =
      .ok ⟨{PyVal.int 9}, [("2025-01-01", .absent)], [("A", .absent)]⟩ ∧
    PyVal.int 9 ∈ ({PyVal.int 9} : Finset PyVal) ∧
    dumpCount ⟨{PyVal.int 9}, [("2025-01-01", .absent)], [("A", .absent)]⟩
      (PyVal.int 9) = 0 :=
  ⟨by decide, by decide, by decide⟩

/-- Witness for `seen_ids_in_exactly_one_dump_amended`: one run over a
fresh state admitting defid 1 leaves it stored in exactly one daily
dump file. -/
theorem seen_ids_in_exactly_one_dump_amended_witness :
    ([("2025-01-01", FileData.stored (.list [entryToPyVal
        ⟨.int 1, "Cat", "d", "e", .str "t"⟩]))]).countP
      (fun p => decide (PyVal.int 1 ∈ fileIds p.2)) = 1 :=
  (seen_ids_in_exactly_one_dump_amended
    [("2025-01-01", [.dict [("defid", .int 1), ("word", .str "Cat"),
      ("definition", .str "d"), ("example", .str "e"),
      ("written_on", .str "t")]])]
    ⟨∅, [], []⟩
    ⟨{PyVal.int 1},
     [("2025-01-01", FileData.stored (.list [entryToPyVal
        ⟨.int 1, "Cat", "d", "e", .str "t"⟩]))],
     [("C", FileData.stored (.dict [("Cat", .list [defRecordOf
        ⟨.int 1, "Cat", "d", "e", .str "t"⟩])]))]⟩
    ⟨by decide, by decide, by decide, by decide⟩
    (by decide) (by decide)).2 (PyVal.int 1) (by decide)
